import Mathlib

/-!
Verification of the cpact test-orchestration engine against its
natural-language specification, via a shallow embedding in Lean 4.

The embedding follows the Python sources of the repository:
  - cpact/system_connections/ssh_connection.py and
    cpact/system_connections/constants.py (background-task lifecycle),
  - cpact/expression/evaluator.py (entry-criteria evaluation),
  - cpact/core/step_executor.py (entry-criteria gating),
  - cpact/core/scenario_runner.py and cpact/core/orchestrator.py
    (inline step loop),
  - cpact/analysis/diagnostic_analysis.py and
    cpact/analysis/output_analysis.py (analysis engine),
  - cpact/core/context.py (diagnostic context),
  - cpact/result_builder/result_builder.py (result collector),
  - cpact/executor/command_executor.py (synchronous command step).

Python dicts are modelled as insertion-ordered association lists
(updating an existing key keeps its position, a fresh key is appended
at the end, exactly like CPython dicts).  External collaborators
(paramiko channels, the stdlib regex engine `re`, the Validator) are
modelled as oracle parameters: the functions under verification receive
the data those collaborators would produce.  Thread interleavings are
modelled at the granularity of the lock-protected registry updates of
ssh_connection.py: each lock-guarded block is one atomic step.
-/

set_option autoImplicit false

namespace Cpact

/-! ### Insertion-ordered association lists (CPython dict semantics) -/

/-- Lookup in an association list, first binding wins (keys are unique
by construction everywhere below, as in a Python dict). -/
def lookupA {α : Type} : List (String × α) → String → Option α
  | [], _ => none
  | (k, v) :: rest, key => if k = key then some v else lookupA rest key

/-- Python dict assignment `m[k] = v`: update in place if the key is
present (keeping its position), otherwise append at the end. -/
def setA {α : Type} : List (String × α) → String → α → List (String × α)
  | [], key, v => [(key, v)]
  | (k, w) :: rest, key, v =>
    if k = key then (key, v) :: rest else (k, w) :: setA rest key v

/-- Python `del m[k]`: remove the binding for `k`. -/
def eraseA {α : Type} : List (String × α) → String → List (String × α)
  | [], _ => []
  | (k, w) :: rest, key => if k = key then rest else (k, w) :: eraseA rest key

/-! ### Task lifecycle model
(cpact/system_connections/constants.py) -/

/-- `TaskStatus` enum of constants.py. -/
inductive TaskStatus
  | running
  | completed
  | failed
  | timeout
  | terminated
deriving Repr, DecidableEq

/-- `TaskResult` dataclass of constants.py.  Times are naturals
(seconds); `execution_time` is `end_time - start_time` where set. -/
structure TaskResult where
  task_id : String
  command : String
  status : TaskStatus
  return_code : Option Int := none
  stdout : String := ""
  stderr : String := ""
  start_time : Nat := 0
  end_time : Option Nat := none
  execution_time : Option Nat := none
deriving Repr, DecidableEq

/-- `BackgroundTask` of constants.py, as registered in
`SSHConnection.background_tasks`.  The result queue and the completion
event are modelled by the completed-task table move and the scheduling
oracle of `waitForTask`; `channels` carries no claim-relevant data. -/
structure BackgroundTask where
  task_id : String
  command : String
  start_time : Nat
  terminated : Bool := false
deriving Repr, DecidableEq

/-- The task-registry part of `SSHConnection`: `background_tasks`
(active) and `completed_tasks` (terminal results), both dicts keyed by
task id and guarded by `self.lock` in the source. -/
structure ConnState where
  background_tasks : List (String × BackgroundTask)
  completed_tasks : List (String × TaskResult)
deriving Repr, DecidableEq

/-- Final result computed by `SSHConnection._background_worker`
(ssh_connection.py lines 378-416): the exit code is read only when the
task was not terminated (else it stays -1), and the status is
TERMINATED when the `terminated` flag is set, otherwise COMPLETED for
exit code 0 and FAILED otherwise.  `ec` is the exit code the channel
would report, `out`/`err` the collected output. -/
def backgroundWorkerResult (bt : BackgroundTask) (ec : Int) (out err : String)
    (endTime : Nat) : TaskResult :=
  let exitCode : Int := if bt.terminated then -1 else ec
  let status : TaskStatus :=
    if bt.terminated then .terminated
    else if exitCode = 0 then .completed else .failed
  { task_id := bt.task_id
    command := bt.command
    status := status
    return_code := some exitCode
    stdout := out
    stderr := err
    start_time := bt.start_time
    end_time := some endTime
    execution_time := some (endTime - bt.start_time) }

/-- The lock-guarded epilogue of `_background_worker` (lines 447-454):
if the task is still registered, its result is queued, the completion
event is set, the task leaves `background_tasks` and the result is
stored in `completed_tasks`.  Returns the produced result (also the
value put on the result queue), or `none` when the task had already
been force-moved (then the worker stores nothing). -/
def workerFinish (s : ConnState) (id : String) (ec : Int) (out err : String)
    (endTime : Nat) : ConnState × Option TaskResult :=
  match lookupA s.background_tasks id with
  | none => (s, none)
  | some bt =>
    let r := backgroundWorkerResult bt ec out err endTime
    ({ background_tasks := eraseA s.background_tasks id
       completed_tasks := setA s.completed_tasks id r }, some r)

/-- `SSHConnection.terminate_task` (lines 733-817).  `signalOk` is the
oracle for whether sending the interrupt signal over the channel
raises; on failure the method synthesizes a TERMINATED result itself
and force-moves the task into `completed_tasks` (lines 786-804).
Returns the new state and the boolean result of the method. -/
def terminateTask (s : ConnState) (id : String) (signalOk : Bool) (now : Nat)
    (errText : String) : ConnState × Bool :=
  match lookupA s.background_tasks id with
  | none => (s, false)
  | some bt =>
    let bt' := { bt with terminated := true }
    let s' : ConnState :=
      { s with background_tasks := setA s.background_tasks id bt' }
    if signalOk then (s', true)
    else
      let r : TaskResult :=
        { task_id := id
          command := bt.command
          status := .terminated
          return_code := some (-1)
          stdout := ""
          stderr := "Task termination failed: " ++ errText
          start_time := bt.start_time
          end_time := some now
          execution_time := some (now - bt.start_time) }
      ({ background_tasks := eraseA s'.background_tasks id
         completed_tasks := setA s'.completed_tasks id r }, false)

/-- Scheduling oracle for `waitForTask`: when the worker thread of the
awaited task delivers its result relative to the wait deadline and the
2-second post-termination grace period. -/
inductive WorkerTiming
  /-- The completion event fires within the wait timeout; the worker
  finished with exit code `ec` and output `out`/`err` at time `t`. -/
  | beforeDeadline (ec : Int) (out err : String) (t : Nat)
  /-- The wait timeout elapses first; the worker finishes only during
  the grace period that follows the forced termination. -/
  | inGrace (ec : Int) (out err : String) (t : Nat)
  /-- The worker does not finish even during the grace period. -/
  | never
deriving Repr, DecidableEq

/-- `SSHConnection.wait_for_task` (lines 461-558), with the thread
interleaving resolved by the `timing` oracle.  Control flow of the
source: an already-completed task returns its stored result; an
unknown id returns `none`; otherwise the call blocks on the completion
event.  If the event fires in time, the worker result is taken from
the queue.  On timeout the task is terminated, the call waits up to 2
more seconds, takes a worker result if one arrived, falls back to the
completed-task table, and as a last resort synthesizes a TIMEOUT
result with the recoverable partial output and stores it. -/
def waitForTask (s : ConnState) (id : String) (timeout : Option Nat)
    (timing : WorkerTiming) (signalOk : Bool) (now : Nat) :
    ConnState × Option TaskResult :=
  match lookupA s.completed_tasks id with
  | some r => (s, some r)
  | none =>
    match lookupA s.background_tasks id with
    | none => (s, none)
    | some bt =>
      match timing with
      | .beforeDeadline ec out err t => workerFinish s id ec out err t
      | .inGrace ec out err t =>
        let s1 := (terminateTask s id signalOk now "signal send failed").1
        let (s2, r?) := workerFinish s1 id ec out err t
        match r? with
        | some r => (s2, some r)
        | none => (s2, lookupA s2.completed_tasks id)
      | .never =>
        let s1 := (terminateTask s id signalOk now "signal send failed").1
        match lookupA s1.completed_tasks id with
        | some r => (s1, some r)
        | none =>
          let r : TaskResult :=
            { task_id := id
              command := bt.command
              status := .timeout
              return_code := some (-1)
              stdout := ""
              stderr := "Task timed out after " ++
                (match timeout with
                 | some t => toString t
                 | none => "None") ++ " seconds"
              start_time := bt.start_time
              end_time := some now
              execution_time := some (now - bt.start_time) }
          ({ s1 with completed_tasks := setA s1.completed_tasks id r }, some r)

/-! ### Expression evaluator
(cpact/expression/evaluator.py) -/

/-- Values the diagnostic-key map can hold and Python `eval` can
produce for entry-criteria expressions. -/
inductive Value
  | vBool (b : Bool)
  | vInt (n : Int)
  | vStr (s : String)
deriving Repr, DecidableEq

/-- Python truthiness of a `Value`. -/
def truthy : Value → Bool
  | .vBool b => b
  | .vInt n => n ≠ 0
  | .vStr s => s ≠ ""

/-- Entry-criteria expression language.  The source evaluates criteria
with Python `eval` over the diagnostic-key namespace; this is the
fragment the engine documents (identifiers, literals, `not`, `and`,
`or`, `==`, `<`), embedded as an AST. -/
inductive PyExpr
  | var (name : String)
  | lit (v : Value)
  | notE (e : PyExpr)
  | andE (a b : PyExpr)
  | orE (a b : PyExpr)
  | eqE (a b : PyExpr)
  | ltE (a b : PyExpr)
deriving Repr, DecidableEq

/-- Python `==` on these value types (never raises; `bool` compares
numerically with `int`, cross-type otherwise compares unequal). -/
def pyEq : Value → Value → Bool
  | .vBool a, .vBool b => a = b
  | .vInt a, .vInt b => a = b
  | .vStr a, .vStr b => a = b
  | .vBool a, .vInt b => (if a then (1 : Int) else 0) = b
  | .vInt a, .vBool b => a = (if b then (1 : Int) else 0)
  | _, _ => false

/-- Python `<`: numeric for bool/int, lexicographic for strings,
TypeError (`none`) across incompatible types. -/
def pyLt : Value → Value → Option Bool
  | .vBool a, .vBool b => some ((if a then (1 : Int) else 0) < (if b then (1 : Int) else 0))
  | .vBool a, .vInt b => some ((if a then (1 : Int) else 0) < b)
  | .vInt a, .vBool b => some (a < (if b then (1 : Int) else 0))
  | .vInt a, .vInt b => some (a < b)
  | .vStr a, .vStr b => some (a < b)
  | _, _ => none

/-- `eval(expression, {}, diagnostic_keys)`: evaluation over the
diagnostic-key namespace.  `none` models a raised exception (NameError
for a missing key, TypeError for an ill-typed comparison).  `and`/`or`
return an operand, as in Python. -/
def evalExpr : PyExpr → List (String × Value) → Option Value
  | .var n, env => lookupA env n
  | .lit v, _ => some v
  | .notE e, env => (evalExpr e env).map (fun v => .vBool (!truthy v))
  | .andE a b, env =>
    match evalExpr a env with
    | none => none
    | some va => if truthy va then evalExpr b env else some va
  | .orE a b, env =>
    match evalExpr a env with
    | none => none
    | some va => if truthy va then some va else evalExpr b env
  | .eqE a b, env =>
    match evalExpr a env, evalExpr b env with
    | some va, some vb => some (.vBool (pyEq va vb))
    | _, _ => none
  | .ltE a b, env =>
    match evalExpr a env, evalExpr b env with
    | some va, some vb => (pyLt va vb).map .vBool
    | _, _ => none

/-- One entry criterion, the dict `{"expression": ...}` of the step
declaration.  `none` models a missing (or empty, hence falsy)
`expression` field. -/
structure Criterion where
  expression : Option PyExpr
deriving Repr, DecidableEq

/-- `ExpressionEvaluator._evaluate_single` (evaluator.py lines
82-103): a missing expression logs a warning and yields False; an
exception during `eval` is caught, logged and yields False; otherwise
the evaluated value is returned (its truthiness is what both call
sites consume). -/
def evaluateSingle (c : Criterion) (keys : List (String × Value)) : Bool :=
  match c.expression with
  | none => false
  | some e =>
    match evalExpr e keys with
    | none => false
    | some v => truthy v

/-- The `results` list built by the loop of
`ExpressionEvaluator.evaluate` (evaluator.py lines 71-77): a failing
criterion appends False and then also True (the append is not inside
an else), a passing criterion appends True. -/
def evalResults (cs : List Criterion) (keys : List (String × Value)) : List Bool :=
  match cs with
  | [] => []
  | c :: rest =>
    (if evaluateSingle c keys then [true] else [false, true]) ++ evalResults rest keys

/-- `ExpressionEvaluator.evaluate` (evaluator.py lines 60-80): build
`results`, return its sole element when it has length 1, else
`all(results)`. -/
def evaluate (cs : List Criterion) (keys : List (String × Value)) : Bool :=
  let results := evalResults cs keys
  if results.length = 1 then results.headD false else results.all id

/-- Outcome of the entry-criteria gate of `StepExecutor.run`. -/
inductive GateOutcome
  /-- The step is skipped: the result recorded in the collector carries
  this status string, and `run` returns this boolean status and
  message. -/
  | skip (recordedStatus : String) (returnedOk : Bool) (message : String)
  /-- The gate passes and the step body runs. -/
  | run
deriving Repr, DecidableEq

/-- Entry-criteria gating of `StepExecutor.run` (step_executor.py lines
86-112): when the step declares a non-empty criteria list and
`evaluate` is false, a step result with status "skip" and message
"Entry criteria not met" is recorded and `run` returns
`(None, True, "Entry criteria not met")`; otherwise the step body
executes. -/
def stepEntryGate (entryCriteria : Option (List Criterion))
    (keys : List (String × Value)) : GateOutcome :=
  match entryCriteria with
  | none => .run
  | some cs =>
    if cs ≠ [] ∧ evaluate cs keys = false then
      .skip "skip" true "Entry criteria not met"
    else .run

/-! ### Inline step loop
(cpact/core/scenario_runner.py lines 96-122 and
cpact/core/orchestrator.py lines 156-184) -/

/-- A scenario step as seen by the inline loop.  `continueFlag` is the
`continue` field of the step declaration; the loop's check of it is
commented out in both sources, so it is carried but never read. -/
structure ScenStep where
  step_id : String
  continueFlag : Bool
deriving Repr, DecidableEq

/-- The inline step loop shared by `ScenarioRunner.run` and
`Orchestrator._run_steps`: steps run in declaration order through
`StepExecutor.run` (abstracted to the status oracle `exec`); on the
first false status the loop sets `run_status = False` and breaks.
Returns the executed steps in order and the final `run_status`. -/
def runInlineSteps (exec : ScenStep → Bool) : List ScenStep → List ScenStep × Bool
  | [] => ([], true)
  | s :: rest =>
    if exec s then
      let (es, st) := runInlineSteps exec rest
      (s :: es, st)
    else ([s], false)

/-! ### Diagnostic analysis
(cpact/analysis/diagnostic_analysis.py) -/

/-- One regex match as the stdlib `re` engine delivers it to
`search_and_manage`: the whole matched text, `match.groupdict()` (the
named groups in definition order, unmatched ones `none`) and
`match.groups()` (all positional groups, unmatched ones `none`). -/
structure MatchData where
  matched : String
  named : List (String × Option String)
  groups : List (Option String)
deriving Repr, DecidableEq

/-- A diagnostic-analysis rule.  `none` models an absent (or empty,
hence falsy) field, matching the `rule.get(...)` truthiness checks of
the source. -/
structure DiagRule where
  search_string : Option String := none
  diagnostic_search_string : Option String := none
  diagnostic_result_code : Option String := none
  parameter_to_set : Option String := none
deriving Repr, DecidableEq

/-- Python `str(...)` applied to a group value that may be `None`. -/
def pyStrOpt : Option String → String
  | none => "None"
  | some s => s

/-- Python truthiness of a captured group (`None` and `""` are
falsy). -/
def truthyGroup : Option String → Bool
  | none => false
  | some s => s ≠ ""

/-- Python `str(tuple_of_strings)` for tuples of length at least 2, as
produced for `str(diag_tuple)`. -/
def pyTupleStr (xs : List String) : String :=
  "(" ++ String.intercalate ", " (xs.map (fun s => "\x27" ++ s ++ "\x27")) ++ ")"

/-- The `diagnostic_result_code` derivation of
`DiagnosticAnalysis.search_and_manage` (diagnostic_analysis.py lines
155-177), per match:
CASE 1 - the rule's `diagnostic_result_code` names a group of the
match: its captured value (which may be `None`, later dropped as
falsy); CASE 2 - `diagnostic_result_code` is a fixed value; CASE 3 -
no explicit code and named groups exist: `str` of the first named
group's value; otherwise, with positional groups: `str` of the tuple
of truthy groups when at least two are truthy, else `str` of the first
positional group; with no groups at all the code stays `None`. -/
def deriveCode (entry : DiagRule) (m : MatchData) : Option String :=
  match entry.diagnostic_result_code with
  | some drc =>
    match lookupA m.named drc with
    | some v => v
    | none => some drc
  | none =>
    match m.named, m.groups with
    | (_, v) :: _, _ => some (pyStrOpt v)
    | [], [] => none
    | [], g0 :: gs =>
      let diagTuple := (g0 :: gs).filterMap
        (fun g => if truthyGroup g then g else none)
      if 2 ≤ diagTuple.length then some (pyTupleStr diagTuple)
      else some (pyStrOpt g0)

/-- The per-match group data of `search_and_manage` (lines 182-196):
the full `groupdict` when named groups exist; else for exactly one
positional group the singleton list holding it (possibly `None`); else
the list of truthy positional groups when non-empty; else the initial
(falsy) `{}`. -/
inductive GroupData
  | dict (d : List (String × Option String))
  | list (xs : List (Option String))
  | empty
deriving Repr, DecidableEq

/-- Python truthiness of `group_data`. -/
def truthyGD : GroupData → Bool
  | .dict d => d ≠ []
  | .list xs => xs ≠ []
  | .empty => false

/-- `group_data` computation of `search_and_manage` (lines 182-196). -/
def groupDataOf (m : MatchData) : GroupData :=
  match m.named with
  | _ :: _ => .dict m.named
  | [] =>
    match m.groups with
    | [g0] => .list [g0]
    | gs =>
      let d := gs.filterMap
        (fun g => match g with
          | some s => if s = "" then none else some (some s)
          | none => none)
      if d ≠ [] then .list d else .empty

/-- The diagnostics map threaded through `search_and_manage`: code to
list of group data, with CPython dict insertion order. -/
abbrev DiagMap := List (String × List GroupData)

/-- The insertion step of `search_and_manage` (lines 197-200): ensure
the map has an entry for the code, then append the group data unless
it is falsy or already present (duplicate suppression at the point of
insertion). -/
def insertGD (map : DiagMap) (code : String) (gd : GroupData) : DiagMap :=
  let map1 := if (lookupA map code).isNone then setA map code [] else map
  let cur := (lookupA map1 code).getD []
  if truthyGD gd ∧ gd ∉ cur then setA map1 code (cur ++ [gd]) else map1

/-- Body of the `for match in matches` loop of `search_and_manage`
(lines 154-200): derive the code, drop the match when the code is
falsy (`if not diagnostic_result_code: continue`), else insert the
group data. -/
def processMatch (entry : DiagRule) (map : DiagMap) (m : MatchData) : DiagMap :=
  match deriveCode entry m with
  | none => map
  | some code =>
    if code = "" then map
    else insertGD map code (groupDataOf m)

/-- `DiagnosticAnalysis.search_and_manage` (lines 139-201): fold the
per-match processing over all non-overlapping matches `finditer`
produced, threading the shared diagnostics map. -/
def searchAndManage (entry : DiagRule) (ms : List MatchData)
    (map : DiagMap) : DiagMap :=
  ms.foldl (processMatch entry) map

/-- Disposition of one rule in the dispatch of
`DiagnosticAnalysis.analyze` (diagnostic_analysis.py lines 66-93). -/
inductive RuleOutcome
  /-- Both `search_string` and `diagnostic_search_string` are set: the
  warning "Using diagnostic_search_string for analysis." is logged and
  the loop does `continue` - the rule is skipped. -/
  | skippedConflictBoth
  /-- `search_string` without `diagnostic_result_code`: warned and
  skipped. -/
  | skippedNoCode
  /-- `diagnostic_search_string` together with
  `diagnostic_result_code`: warned and skipped. -/
  | skippedDssWithDrc
  /-- The rule is applied with `pattern = search_string or
  diagnostic_search_string`. -/
  | applied (pattern : String)
  /-- Neither pattern field is set: `re.compile(None)` raises. -/
  | errorNoPattern
deriving Repr, DecidableEq

/-- The rule dispatch of `DiagnosticAnalysis.analyze` (lines 66-93),
in source order of the guards. -/
def ruleDisposition (r : DiagRule) : RuleOutcome :=
  if r.search_string.isSome ∧ r.diagnostic_search_string.isSome then
    .skippedConflictBoth
  else if r.search_string.isSome ∧ r.diagnostic_result_code.isNone then
    .skippedNoCode
  else if r.diagnostic_search_string.isSome ∧ r.diagnostic_result_code.isSome then
    .skippedDssWithDrc
  else
    match r.search_string with
    | some p => .applied p
    | none =>
      match r.diagnostic_search_string with
      | some p => .applied p
      | none => .errorNoPattern

/-- The diagnostics-map part of `DiagnosticAnalysis.analyze` (lines
65-137): rules are processed in order; a rule that the dispatch skips
contributes nothing; an applied rule runs `search_and_manage` on the
matches the regex engine (`matcher`) yields for its pattern in the
analyzed text. -/
def analyzeDiagRules (rules : List DiagRule)
    (matcher : String → List MatchData) (map : DiagMap) : DiagMap :=
  rules.foldl
    (fun acc r =>
      match ruleDisposition r with
      | .applied p => searchAndManage r (matcher p) acc
      | _ => acc)
    map

/-! ### Diagnostic context and result collector
(cpact/core/context.py, cpact/result_builder/result_builder.py) -/

/-- A test-id → step-id → key → value nested map, the shape of both
`Context.diagnostic_context["keys"]` and
`ResultCollector.keys_to_set`.  The constant outer "keys" layer of the
context is elided. -/
abbrev NestedKeys := List (String × List (String × List (String × Value)))

/-- Lookup through the nested test/step/key map. -/
def lookupNested (m : NestedKeys) (tc step key : String) : Option Value :=
  match lookupA m tc with
  | none => none
  | some sm =>
    match lookupA sm step with
    | none => none
    | some km => lookupA km key

/-- Assignment through the nested test/step/key map, creating the
intermediate dicts as the source does. -/
def setNested (m : NestedKeys) (tc step key : String) (v : Value) : NestedKeys :=
  let sm := (lookupA m tc).getD []
  let km := (lookupA sm step).getD []
  setA m tc (setA sm step (setA km key v))

/-- The context state the analysis engine mutates
(cpact/core/context.py): the nested diagnostic-context keys and the
flat "last value per key" map consumed by entry-criteria
evaluation. -/
structure Ctx where
  diagnostic_context : NestedKeys
  parameters_to_set : List (String × Value)
deriving Repr, DecidableEq

/-- `Context.update_diagnostic_context` (context.py lines 165-185):
records the value under test id → step id → key and also updates the
flat `parameters_to_set` map. -/
def updateDiagnosticContext (c : Ctx) (tc step key : String) (v : Value) : Ctx :=
  { diagnostic_context := setNested c.diagnostic_context tc step key v
    parameters_to_set := setA c.parameters_to_set key v }

/-- The result-collector state output analysis touches
(result_builder.py): the per-test per-step diagnostic-key table. -/
structure Collector where
  keys_to_set : NestedKeys
deriving Repr, DecidableEq

/-- `ResultCollector.add_diagnostic_keys` (result_builder.py lines
166-183). -/
def addDiagnosticKeys (col : Collector) (tc step key : String) (v : Value) :
    Collector :=
  { keys_to_set := setNested col.keys_to_set tc step key v }

/-! ### Output analysis
(cpact/analysis/output_analysis.py) -/

/-- An output-analysis rule: `{regex, parameter_to_set}`. -/
structure OARule where
  regex : String
  parameter_to_set : String
deriving Repr, DecidableEq

/-- `OutputAnalysis.analyze` (output_analysis.py lines 54-91): for
each rule in order, `re.search(pattern, output)` once (the `matcher`
oracle stands for the stdlib regex engine), then the boolean of the
match is written to the diagnostic context (nested and flat) and to
the result collector's diagnostic-key table, and `{key: value}` is
appended to the returned results. -/
def outputAnalyze (rules : List OARule) (output : String)
    (matcher : String → String → Bool) (tc step : String)
    (c : Ctx) (col : Collector) :
    Ctx × Collector × List (String × Bool) :=
  match rules with
  | [] => (c, col, [])
  | r :: rest =>
    let value := matcher r.regex output
    let c1 := updateDiagnosticContext c tc step r.parameter_to_set (.vBool value)
    let col1 := addDiagnosticKeys col tc step r.parameter_to_set (.vBool value)
    let (c2, col2, res) := outputAnalyze rest output matcher tc step c1 col1
    (c2, col2, (r.parameter_to_set, value) :: res)

/-! ### Diagnostics dedup
(cpact/result_builder/result_builder.py, filter_unique_diagnostics,
lines 373-407) -/

/-- One entry of a diagnostics group: the kinds of values
`search_and_manage` records per code - a plain string, a groupdict, or
a list of (possibly missing) captures. -/
inductive DEntry
  | str (s : String)
  | dict (d : List (String × Option String))
  | list (xs : List (Option String))
deriving Repr, DecidableEq

/-- `{k: v for k, v in entry.items() if v != code}` - drop the pairs
whose value equals the code. -/
def filterDictVals (code : String) (d : List (String × Option String)) :
    List (String × Option String) :=
  d.filter (fun kv => kv.2 ≠ some code)

/-- Insertion sort by key, modelling `sorted(mew_entry.items())` (the
group keys are distinct, so ordering is by key). -/
def insertSorted (p : String × Option String) :
    List (String × Option String) → List (String × Option String)
  | [] => [p]
  | q :: rest => if p.1 ≤ q.1 then p :: q :: rest else q :: insertSorted p rest

/-- `sorted(...)` over an item list. -/
def sortByKey (l : List (String × Option String)) :
    List (String × Option String) :=
  l.foldr insertSorted []

/-- The hashable `entry_tuple` used for the uniqueness tracker
(result_builder.py lines 390-396): a tuple of items for dicts, the
tuple of the list for lists, and a one-element tuple for scalars.  A
string scalar `s` and the list `[s]` produce the same tuple, exactly
as in Python. -/
inductive DKey
  | kDict (d : List (String × Option String))
  | kTuple (xs : List (Option String))
deriving Repr, DecidableEq

/-- `entry_tuple` per entry kind. -/
def entryKey (code : String) : DEntry → DKey
  | .str s => .kTuple [some s]
  | .dict d => .kDict (sortByKey (filterDictVals code d))
  | .list xs => .kTuple xs

/-- `entry_data` (lines 399-403): dicts are stored with their
code-valued pairs dropped, everything else is stored as-is. -/
def entryData (code : String) : DEntry → DEntry
  | .dict d => .dict (filterDictVals code d)
  | e => e

/-- Python truthiness of an entry (`if entry_data:`). -/
def truthyD : DEntry → Bool
  | .str s => s ≠ ""
  | .dict d => d ≠ []
  | .list xs => xs ≠ []

/-- The self-reference strip (line 388): a string entry whose stripped
text equals the code is dropped. -/
def skipSelfRef (code : String) : DEntry → Bool
  | .str s => s.trim = code
  | _ => false

/-- State threaded through `filter_unique_diagnostics`: the
`unique_tracker` (per-code set of seen tuples) and the `merged_codes`
output map. -/
structure FUState where
  tracker : List (String × List DKey)
  merged : List (String × List DEntry)
deriving Repr, DecidableEq

/-- Body of the `for entry in entries` loop (lines 387-405): skip
self-referential strings, skip entries whose tuple was already seen
for this code, record the tuple, and append the (possibly filtered)
entry data when it is truthy. -/
def fuStep (code : String) (st : FUState) (e : DEntry) : FUState :=
  if skipSelfRef code e then st
  else
    let key := entryKey code e
    let seen := (lookupA st.tracker code).getD []
    if key ∈ seen then st
    else
      let st1 : FUState :=
        { st with tracker := setA st.tracker code (seen ++ [key]) }
      let data := entryData code e
      if truthyD data then
        let cur := (lookupA st1.merged code).getD []
        { st1 with merged := setA st1.merged code (cur ++ [data]) }
      else st1

/-- The `for code, entries in codes.items()` loop. -/
def fuCode (st : FUState) (code : String) (entries : List DEntry) : FUState :=
  entries.foldl (fuStep code) st

/-- The `for item in diagnostic_data` loop; each item contributes its
`codes` dict. -/
def fuItem (st : FUState) (item : List (String × List DEntry)) : FUState :=
  item.foldl (fun acc ce => fuCode acc ce.1 ce.2) st

/-- `ResultCollector.filter_unique_diagnostics` (lines 373-407): the
input is the `codes` map of each diagnostics item, the output the
merged per-code map. -/
def filterUniqueDiagnostics (data : List (List (String × List DEntry))) :
    List (String × List DEntry) :=
  (data.foldl fuItem ⟨[], []⟩).merged

/-! ### Synchronous command execution
(cpact/executor/command_executor.py, execute, lines 148-202) -/

/-- Observable outcome of the synchronous tail of
`CommandExecutor.execute`: the returned triple plus whether the
output-analysis and expected-output-validation stages ran. -/
structure ExecOutcome where
  output : String
  ok : Bool
  message : String
  outputAnalysisApplied : Bool
  validationApplied : Bool
deriving Repr, DecidableEq

/-- The synchronous tail of `CommandExecutor.execute` (lines 148-202),
from the `execute_command` result on: an empty `result.stdout` fails
the step immediately with "Command execution failed." (whatever the
return code); otherwise output analysis runs when rules are declared,
then expected-output validation (the `validator` oracle stands for
`Validator._search_recursive`) decides success. -/
def commandExecuteSync (result : TaskResult) (hasAnalysisRules : Bool)
    (expected : Option String) (validator : String → String → Bool × String) :
    ExecOutcome :=
  let output := result.stdout
  if output = "" then
    { output := ""
      ok := false
      message := "Command execution failed."
      outputAnalysisApplied := false
      validationApplied := false }
  else
    match expected with
    | some e =>
      let (status, vmsg) := validator e output
      if status then
        { output := output
          ok := true
          message := "Command executed successfully and output validated."
          outputAnalysisApplied := hasAnalysisRules
          validationApplied := true }
      else
        { output := output
          ok := false
          message := vmsg
          outputAnalysisApplied := hasAnalysisRules
          validationApplied := true }
    | none =>
      { output := output
        ok := true
        message := "Command executed successfully and output validated."
        outputAnalysisApplied := hasAnalysisRules
        validationApplied := false }

/-! ### Specification-side definitions used by the claim theorems -/

/-- The per-match result-code resolution as the amended claim words
it: the designated named group's captured value when the rule
designates one that names a group of the match; else the designated
fixed value; else, when named groups exist, the Python-stringified
value of the first named group; else, when positional groups exist,
the stringified tuple of the non-empty captures when at least two are
non-empty, otherwise the stringified first positional capture; and no
code at all for a match without capture groups.  Stated independently
of `deriveCode` and proved equal to it. -/
def codeSpecAmended (entry : DiagRule) (m : MatchData) : Option String :=
  match entry.diagnostic_result_code with
  | some drc =>
    if (lookupA m.named drc).isSome then (lookupA m.named drc).join
    else some drc
  | none =>
    if 0 < m.named.length then
      some (pyStrOpt ((m.named.map Prod.snd).headD none))
    else if 0 < m.groups.length then
      let nonEmpty := (m.groups.map (fun g => g.getD "")).filter (fun s => s ≠ "")
      if 2 ≤ nonEmpty.length then some (pyTupleStr nonEmpty)
      else some (pyStrOpt (m.groups.headD none))
    else none

/-- Normal form of one merged diagnostics entry for code `c`: it is
not self-referential, it is truthy, and it is already self-filtered
(re-filtering its code-valued pairs changes nothing). -/
def NormEntry (c : String) (e : DEntry) : Prop :=
  skipSelfRef c e = false ∧ truthyD e = true ∧ entryData c e = e

/-- Normal form of a merged per-code list: non-empty, all entries
normal, and pairwise distinct under the uniqueness tuples. -/
def NormalList (c : String) (l : List DEntry) : Prop :=
  l ≠ [] ∧ (∀ e ∈ l, NormEntry c e) ∧ (l.map (entryKey c)).Nodup

/-- Invariant of the states `filter_unique_diagnostics` reaches from
the empty state: merged codes are unique, every merged list is normal,
and every merged entry's tuple has been recorded in the tracker. -/
def FUInv (st : FUState) : Prop :=
  (st.merged.map Prod.fst).Nodup ∧
  ∀ c l, lookupA st.merged c = some l →
    NormalList c l ∧ ∀ k ∈ l.map (entryKey c), k ∈ (lookupA st.tracker c).getD []

/-! ## Association-list lemmas -/

theorem lookupA_setA_self {α : Type} (m : List (String × α)) (k : String) (v : α) :
    lookupA (setA m k v) k = some v := by
  induction m with
  | nil => simp [setA, lookupA]
  | cons p rest ih =>
    by_cases h : p.1 = k
    · simp [setA, h, lookupA]
    · simp [setA, h, lookupA, ih]

theorem lookupA_setA_ne {α : Type} (m : List (String × α)) (k k2 : String) (v : α)
    (h : k2 ≠ k) : lookupA (setA m k v) k2 = lookupA m k2 := by
  induction m with
  | nil => simp [setA, lookupA, h, Ne.symm h]
  | cons p rest ih =>
    by_cases hp : p.1 = k
    · subst hp
      simp [setA, lookupA, h, Ne.symm h]
    · by_cases hp2 : p.1 = k2
      · simp [setA, hp, lookupA, hp2, h]
      · simp [setA, hp, lookupA, hp2, ih]

theorem setA_setA {α : Type} (m : List (String × α)) (k : String) (v w : α) :
    setA (setA m k v) k w = setA m k w := by
  induction m with
  | nil => simp [setA]
  | cons p rest ih =>
    by_cases h : p.1 = k
    · simp [setA, h]
    · simp [setA, h, ih]

theorem setA_of_lookupA_none {α : Type} (m : List (String × α)) (k : String) (v : α)
    (h : lookupA m k = none) : setA m k v = m ++ [(k, v)] := by
  induction m with
  | nil => simp [setA]
  | cons p rest ih =>
    by_cases hp : p.1 = k
    · simp [lookupA, hp] at h
    · simp [lookupA, hp] at h
      simp [setA, hp, ih h]

theorem lookupA_eq_none_of_not_mem_keys {α : Type} (m : List (String × α))
    (k : String) (h : k ∉ m.map Prod.fst) : lookupA m k = none := by
  induction m with
  | nil => simp [lookupA]
  | cons p rest ih =>
    simp only [List.map_cons, List.mem_cons] at h
    push_neg at h
    have hp : ¬p.1 = k := fun he => h.1 he.symm
    simp [lookupA, hp, ih h.2]

theorem not_mem_keys_of_lookupA_none {α : Type} (m : List (String × α))
    (k : String) (h : lookupA m k = none) : k ∉ m.map Prod.fst := by
  induction m with
  | nil => simp
  | cons p rest ih =>
    by_cases hp : p.1 = k
    · simp [lookupA, hp] at h
    · simp only [lookupA, hp, if_false] at h
      simp only [List.map_cons, List.mem_cons]
      push_neg
      exact ⟨fun he => hp he.symm, ih h⟩

theorem lookupA_eraseA_self {α : Type} (m : List (String × α)) (k : String)
    (h : (m.map Prod.fst).Nodup) : lookupA (eraseA m k) k = none := by
  induction m with
  | nil => simp [eraseA, lookupA]
  | cons p rest ih =>
    simp only [List.map_cons, List.nodup_cons] at h
    by_cases hp : p.1 = k
    · subst hp
      have he : eraseA (p :: rest) p.1 = rest := by
        obtain ⟨a, b⟩ := p
        simp [eraseA]
      rw [he]
      exact lookupA_eq_none_of_not_mem_keys rest p.1 h.1
    · have he : eraseA (p :: rest) k = p :: eraseA rest k := by
        obtain ⟨a, b⟩ := p
        simp only at hp
        simp [eraseA, hp]
      rw [he]
      simp [lookupA, hp, ih h.2]

theorem keys_setA_of_lookupA_some {α : Type} (m : List (String × α)) (k : String)
    (v : α) (h : (lookupA m k).isSome) :
    (setA m k v).map Prod.fst = m.map Prod.fst := by
  induction m with
  | nil => simp [lookupA] at h
  | cons p rest ih =>
    by_cases hp : p.1 = k
    · simp [setA, hp]
    · simp only [lookupA, hp, if_false] at h
      simp [setA, hp, ih h]

theorem nodup_keys_setA {α : Type} (m : List (String × α)) (k : String) (v : α)
    (h : (m.map Prod.fst).Nodup) : ((setA m k v).map Prod.fst).Nodup := by
  rcases hk : lookupA m k with _ | w
  · rw [setA_of_lookupA_none m k v hk]
    simp only [List.map_append, List.map_cons, List.map_nil]
    rw [List.nodup_append]
    refine ⟨h, List.nodup_singleton k, ?_⟩
    intro a ha
    simp only [List.mem_singleton]
    intro he
    subst he
    exact not_mem_keys_of_lookupA_none m a hk ha
  · rw [keys_setA_of_lookupA_some m k v (by simp [hk])]
    exact h

theorem setA_lookup_eq_self {α : Type} (m : List (String × α)) (k : String) (v : α)
    (h : lookupA m k = some v) : setA m k v = m := by
  induction m with
  | nil => simp [lookupA] at h
  | cons p rest ih =>
    by_cases hp : p.1 = k
    · simp only [lookupA, hp, if_true] at h
      obtain ⟨a, b⟩ := p
      simp only at hp
      subst hp
      cases h
      simp [setA]
    · simp only [lookupA, hp, if_false] at h
      obtain ⟨a, b⟩ := p
      simp only at hp
      simp [setA, hp, ih h]

theorem lookupA_append_right {α : Type} (m1 m2 : List (String × α)) (k : String)
    (h : lookupA m1 k = none) : lookupA (m1 ++ m2) k = lookupA m2 k := by
  induction m1 with
  | nil => rfl
  | cons p rest ih =>
    by_cases hp : p.1 = k
    · simp [lookupA, hp] at h
    · simp only [lookupA, hp, if_false] at h
      obtain ⟨a, b⟩ := p
      simp only at hp
      simp [lookupA, hp, ih h]

theorem setA_append_single {α : Type} (m1 : List (String × α)) (k : String) (x v : α)
    (h : lookupA m1 k = none) : setA (m1 ++ [(k, x)]) k v = m1 ++ [(k, v)] := by
  induction m1 with
  | nil => simp [setA]
  | cons p rest ih =>
    by_cases hp : p.1 = k
    · simp [lookupA, hp] at h
    · simp only [lookupA, hp, if_false] at h
      obtain ⟨a, b⟩ := p
      simp only at hp
      simp [setA, hp, ih h]

theorem lookupA_of_mem_nodup {α : Type} (m : List (String × α))
    (p : String × α) (hnd : (m.map Prod.fst).Nodup) (hp : p ∈ m) :
    lookupA m p.1 = some p.2 := by
  induction m with
  | nil => cases hp
  | cons q rest ih =>
    simp only [List.map_cons, List.nodup_cons] at hnd
    rcases List.mem_cons.mp hp with he | hm
    · subst he
      simp [lookupA]
    · have hq : ¬q.1 = p.1 := by
        intro he
        exact hnd.1 (he ▸ (List.mem_map.mpr ⟨p, hm, rfl⟩))
      simp [lookupA, hq, ih hnd.2 hm]

/-! ## Diagnostic-analysis lemmas (C5) -/

theorem diagTuple_eq_nonEmpty (l : List (Option String)) :
    l.filterMap (fun g => if truthyGroup g then g else none) =
      (l.map (fun g => g.getD "")).filter (fun s => s ≠ "") := by
  induction l with
  | nil => rfl
  | cons g gs ih =>
    cases g with
    | none => simpa [truthyGroup] using ih
    | some s =>
      by_cases hs : s = ""
      · subst hs
        simpa [truthyGroup] using ih
      · simpa [truthyGroup, hs] using ih

theorem deriveCode_eq_codeSpecAmended (e : DiagRule) (m : MatchData) :
    deriveCode e m = codeSpecAmended e m := by
  rcases hd : e.diagnostic_result_code with _ | drc
  · rcases hn : m.named with _ | ⟨⟨k, v⟩, rest⟩
    · rcases hg : m.groups with _ | ⟨g0, gs⟩
      · simp [deriveCode, codeSpecAmended, hd, hn, hg]
      · simp [deriveCode, codeSpecAmended, hd, hn, hg, diagTuple_eq_nonEmpty]
    · simp [deriveCode, codeSpecAmended, hd, hn]
  · rcases hl : lookupA m.named drc with _ | v
    · simp [deriveCode, codeSpecAmended, hd, hl]
    · simp [deriveCode, codeSpecAmended, hd, hl]

theorem insertGD_lookup_ne (map : DiagMap) (code : String) (gd : GroupData)
    (c : String) (h : c ≠ code) :
    lookupA (insertGD map code gd) c = lookupA map c := by
  unfold insertGD
  rcases hm : lookupA map code with _ | cur
  · simp only [hm, Option.isNone_none, if_true, lookupA_setA_self, Option.getD_some]
    by_cases hcond : truthyGD gd = true ∧ gd ∉ ([] : List GroupData)
    · rw [if_pos hcond, lookupA_setA_ne _ _ _ _ h, lookupA_setA_ne _ _ _ _ h]
    · rw [if_neg hcond, lookupA_setA_ne _ _ _ _ h]
  · simp only [hm, Option.isNone_some, Bool.false_eq_true, if_false, Option.getD_some]
    by_cases hcond : truthyGD gd = true ∧ gd ∉ cur
    · rw [if_pos hcond, lookupA_setA_ne _ _ _ _ h]
    · rw [if_neg hcond]

theorem insertGD_lookup_self (map : DiagMap) (code : String) (gd : GroupData)
    (ht : truthyGD gd = true) :
    ∃ l, lookupA (insertGD map code gd) code = some l ∧ gd ∈ l ∧
      ∀ x ∈ (lookupA map code).getD [], x ∈ l := by
  unfold insertGD
  rcases hm : lookupA map code with _ | cur
  · simp only [hm, Option.isNone_none, if_true, lookupA_setA_self, Option.getD_some]
    refine ⟨[gd], ?_, by simp, by simp⟩
    rw [if_pos ⟨ht, by simp⟩, setA_setA, lookupA_setA_self]
    rfl
  · simp only [hm, Option.isNone_some, Bool.false_eq_true, if_false, Option.getD_some]
    by_cases hmem : gd ∈ cur
    · refine ⟨cur, ?_, hmem, fun x hx => hx⟩
      rw [if_neg (fun hc => hc.2 hmem)]
      exact hm
    · refine ⟨cur ++ [gd], ?_, by simp, fun x hx => by simp [hx]⟩
      rw [if_pos ⟨ht, hmem⟩, lookupA_setA_self]

theorem insertGD_nodup (map : DiagMap) (code : String) (gd : GroupData)
    (h : ∀ c l, lookupA map c = some l → l.Nodup) :
    ∀ c l, lookupA (insertGD map code gd) c = some l → l.Nodup := by
  intro c l hl
  by_cases hc : c = code
  · subst hc
    unfold insertGD at hl
    rcases hm : lookupA map c with _ | cur
    · rw [hm] at hl
      simp only [Option.isNone_none, if_true, lookupA_setA_self, Option.getD_some] at hl
      by_cases hcond : truthyGD gd = true ∧ gd ∉ ([] : List GroupData)
      · rw [if_pos hcond, setA_setA, lookupA_setA_self] at hl
        cases hl
        simp
      · rw [if_neg hcond, lookupA_setA_self] at hl
        cases hl
        simp
    · rw [hm] at hl
      simp only [Option.isNone_some, Bool.false_eq_true, if_false] at hl
      rw [hm] at hl
      simp only [Option.getD_some] at hl
      by_cases hcond : truthyGD gd = true ∧ gd ∉ cur
      · rw [if_pos hcond, lookupA_setA_self] at hl
        cases hl
        have hnd : cur.Nodup := h c cur hm
        rw [List.nodup_append]
        refine ⟨hnd, List.nodup_singleton gd, fun a ha => ?_⟩
        simp only [List.mem_singleton]
        intro he
        subst he
        exact hcond.2 ha
      · rw [if_neg hcond] at hl
        exact h c l hl
  · rw [insertGD_lookup_ne map code gd c hc] at hl
    exact h c l hl

theorem processMatch_adds (entry : DiagRule) (map : DiagMap) (m : MatchData)
    (c : String) (hd : deriveCode entry m = some c) (hne : c ≠ "")
    (hgd : truthyGD (groupDataOf m) = true) :
    ∃ l2, lookupA (processMatch entry map m) c = some l2 ∧ groupDataOf m ∈ l2 := by
  simp only [processMatch, hd, hne, if_false]
  obtain ⟨l, hl, hin, -⟩ := insertGD_lookup_self map c (groupDataOf m) hgd
  exact ⟨l, hl, hin⟩

theorem processMatch_mono (entry : DiagRule) (map : DiagMap) (m : MatchData)
    (c : String) (l : List GroupData) (h : lookupA map c = some l) :
    ∃ l2, lookupA (processMatch entry map m) c = some l2 ∧ ∀ x ∈ l, x ∈ l2 := by
  rcases hd : deriveCode entry m with _ | code
  · exact ⟨l, by simp [processMatch, hd, h], fun x hx => hx⟩
  by_cases hne : code = ""
  · exact ⟨l, by simp [processMatch, hd, hne, h], fun x hx => hx⟩
  simp only [processMatch, hd, hne, if_false]
  by_cases hc : c = code
  · subst hc
    by_cases ht : truthyGD (groupDataOf m) = true
    · obtain ⟨l2, hl2, -, hsub⟩ := insertGD_lookup_self map c (groupDataOf m) ht
      exact ⟨l2, hl2, fun x hx => hsub x (by simp [h, hx])⟩
    · refine ⟨l, ?_, fun x hx => hx⟩
      unfold insertGD
      rw [h]
      simp only [Option.isNone_some, Bool.false_eq_true, if_false, Option.getD_some]
      rw [if_neg (fun hcond => ht hcond.1)]
      exact h
  · rw [insertGD_lookup_ne map code (groupDataOf m) c hc]
    exact ⟨l, h, fun x hx => hx⟩

theorem searchAndManage_mono (entry : DiagRule) (ms : List MatchData)
    (map : DiagMap) (c : String) (l : List GroupData)
    (h : lookupA map c = some l) :
    ∃ l2, lookupA (searchAndManage entry ms map) c = some l2 ∧ ∀ x ∈ l, x ∈ l2 := by
  induction ms generalizing map l with
  | nil => exact ⟨l, h, fun x hx => hx⟩
  | cons m rest ih =>
    obtain ⟨l1, h1, hsub1⟩ := processMatch_mono entry map m c l h
    obtain ⟨l2, h2, hsub2⟩ := ih (processMatch entry map m) l1 h1
    exact ⟨l2, h2, fun x hx => hsub2 x (hsub1 x hx)⟩

theorem searchAndManage_mem (entry : DiagRule) (ms : List MatchData)
    (map : DiagMap) (m : MatchData) (c : String)
    (hm : m ∈ ms) (hd : deriveCode entry m = some c) (hne : c ≠ "")
    (hgd : truthyGD (groupDataOf m) = true) :
    ∃ l, lookupA (searchAndManage entry ms map) c = some l ∧ groupDataOf m ∈ l := by
  induction ms generalizing map with
  | nil => cases hm
  | cons a rest ih =>
    rcases List.mem_cons.mp hm with he | hmem
    · subst he
      obtain ⟨l1, h1, hin1⟩ := processMatch_adds entry map m c hd hne hgd
      obtain ⟨l2, h2, hsub⟩ := searchAndManage_mono entry rest _ c l1 h1
      exact ⟨l2, h2, hsub _ hin1⟩
    · exact ih (processMatch entry map a) hmem

theorem processMatch_nodup (entry : DiagRule) (map : DiagMap) (m : MatchData)
    (h : ∀ c l, lookupA map c = some l → l.Nodup) :
    ∀ c l, lookupA (processMatch entry map m) c = some l → l.Nodup := by
  rcases hd : deriveCode entry m with _ | code
  · simpa [processMatch, hd] using h
  by_cases hne : code = ""
  · simpa [processMatch, hd, hne] using h
  simp only [processMatch, hd, hne, if_false]
  exact insertGD_nodup map code (groupDataOf m) h

theorem searchAndManage_nodup (entry : DiagRule) (ms : List MatchData)
    (map : DiagMap) (h : ∀ c l, lookupA map c = some l → l.Nodup) :
    ∀ c l, lookupA (searchAndManage entry ms map) c = some l → l.Nodup := by
  induction ms generalizing map with
  | nil => exact h
  | cons m rest ih => exact ih _ (processMatch_nodup entry map m h)

/-! ## Claim theorems -/

/-- C4: once a background task has reached a terminal state (its
result sits in the completed-task table), `wait_for_task` returns that
stored result on every call - with any timeout and any worker
scheduling - and leaves the registry untouched, so a first and a
second post-completion call return bit-identical `TaskResult`s. -/
theorem C4_waitForTask_idempotent_after_completion
    (s : ConnState) (id : String) (r : TaskResult)
    (t1 t2 : Option Nat) (g1 g2 : WorkerTiming) (k1 k2 : Bool) (n1 n2 : Nat)
    (h : lookupA s.completed_tasks id = some r) :
    waitForTask s id t1 g1 k1 n1 = (s, some r) ∧
    waitForTask (waitForTask s id t1 g1 k1 n1).1 id t2 g2 k2 n2 = (s, some r) := by
  constructor
  · simp [waitForTask, h]
  · simp [waitForTask, h]

/-- Witness for C4 at a concrete completed task. -/
theorem C4_witness :
    waitForTask
      ⟨[], [("t1", ⟨"t1", "echo ok", .completed, some 0, "ok\n", "", 5, some 6, some 1⟩)]⟩
      "t1" (some 30) .never true 100 =
      (⟨[], [("t1", ⟨"t1", "echo ok", .completed, some 0, "ok\n", "", 5, some 6, some 1⟩)]⟩,
        some ⟨"t1", "echo ok", .completed, some 0, "ok\n", "", 5, some 6, some 1⟩) :=
  (C4_waitForTask_idempotent_after_completion
    ⟨[], [("t1", ⟨"t1", "echo ok", .completed, some 0, "ok\n", "", 5, some 6, some 1⟩)]⟩
    "t1" ⟨"t1", "echo ok", .completed, some 0, "ok\n", "", 5, some 6, some 1⟩
    (some 30) (some 30) .never .never true true 100 100 rfl).1

/-- C10: in the synchronous command path, an empty `result.stdout`
makes the step fail with the message "Command execution failed."
whatever the return code is, and neither output analysis nor
expected-output validation is applied. -/
theorem C10_empty_stdout_fails_step
    (result : TaskResult) (hasRules : Bool) (expected : Option String)
    (validator : String → String → Bool × String)
    (h : result.stdout = "") :
    commandExecuteSync result hasRules expected validator =
      { output := ""
        ok := false
        message := "Command execution failed."
        outputAnalysisApplied := false
        validationApplied := false } := by
  simp [commandExecuteSync, h]

/-- Witness for C10: a command that exited with return code 0 but
produced no stdout is still reported as failed, with analysis and
validation skipped. -/
theorem C10_witness :
    commandExecuteSync ⟨"t2", "true", .completed, some 0, "", "", 0, some 1, some 1⟩
      true (some "ok") (fun _ _ => (true, "matched")) =
      { output := ""
        ok := false
        message := "Command execution failed."
        outputAnalysisApplied := false
        validationApplied := false } :=
  C10_empty_stdout_fails_step
    ⟨"t2", "true", .completed, some 0, "", "", 0, some 1, some 1⟩
    true (some "ok") (fun _ _ => (true, "matched")) rfl

/-- C7: the first step whose execution returns a failed status stops
the inline loop: exactly the preceding (passing) steps and the failing
step itself execute, the steps declared after it do not, and the run
status is false.  The statement quantifies over every value of the
failing step's continue flag, which the loop never reads (the check is
commented out in both scenario_runner.py and orchestrator.py). -/
theorem C7_first_failure_halts_inline_steps
    (exec : ScenStep → Bool) (pre : List ScenStep) (s : ScenStep)
    (post : List ScenStep)
    (hpre : ∀ t ∈ pre, exec t = true) (hs : exec s = false) :
    runInlineSteps exec (pre ++ s :: post) = (pre ++ [s], false) := by
  induction pre with
  | nil => simp [runInlineSteps, hs]
  | cons p rest ih =>
    have hp : exec p = true := hpre p (by simp)
    have hrest : ∀ t ∈ rest, exec t = true := fun t ht => hpre t (by simp [ht])
    simp [runInlineSteps, hp, ih hrest]

/-- Witness for C7: with three steps where the second fails (and has
continue=true), only the first two execute and the run fails. -/
theorem C7_witness :
    runInlineSteps (fun t => t.step_id ≠ "s2")
      [⟨"s1", false⟩, ⟨"s2", true⟩, ⟨"s3", false⟩] =
      ([⟨"s1", false⟩, ⟨"s2", true⟩], false) :=
  C7_first_failure_halts_inline_steps (fun t => t.step_id ≠ "s2")
    [⟨"s1", false⟩] ⟨"s2", true⟩ [⟨"s3", false⟩]
    (by decide) (by decide)

/-- C3: a diagnostic-analysis rule carrying both `search_string` and
`diagnostic_search_string` is dispatched to the conflict branch, which
logs the warning "Using diagnostic_search_string for analysis." and
then executes `continue`: the rule is skipped outright and contributes
no diagnostics, even when the text contains matches for
`diagnostic_search_string`.  The code therefore does not apply the
rule with that pattern, contradicting both the claim and the code's
own log message (nothing is raised, in either reading). -/
theorem C3_conflicting_rule_skipped_not_applied :
    ruleDisposition
      { search_string := some "FAIL"
        diagnostic_search_string := some "(?P<code>FAIL-[0-9]+)" } =
      .skippedConflictBoth ∧
    analyzeDiagRules
      [{ search_string := some "FAIL"
         diagnostic_search_string := some "(?P<code>FAIL-[0-9]+)" }]
      (fun _ => [⟨"FAIL-7", [("code", some "FAIL-7")], [some "FAIL-7"]⟩])
      [] = [] := by
  constructor
  · rfl
  · rfl

/-! ## Expression-evaluator lemmas -/

theorem evalResults_all (cs : List Criterion) (keys : List (String × Value)) :
    (evalResults cs keys).all id = cs.all (fun c => evaluateSingle c keys) := by
  induction cs with
  | nil => rfl
  | cons c rest ih =>
    by_cases hc : evaluateSingle c keys
    · simp [evalResults, hc, ih]
    · simp only [Bool.not_eq_true] at hc
      simp [evalResults, hc]

theorem evalResults_eq_nil_iff (cs : List Criterion) (keys : List (String × Value)) :
    evalResults cs keys = [] ↔ cs = [] := by
  cases cs with
  | nil => simp [evalResults]
  | cons c rest =>
    simp only [evalResults]
    by_cases hc : evaluateSingle c keys <;> simp [hc]

theorem evaluate_eq_all (cs : List Criterion) (keys : List (String × Value)) :
    evaluate cs keys = cs.all (fun c => evaluateSingle c keys) := by
  cases cs with
  | nil => rfl
  | cons c rest =>
    by_cases hc : evaluateSingle c keys
    · rcases hr : evalResults rest keys with _ | ⟨b, bs⟩
      · have hrest : rest = [] := (evalResults_eq_nil_iff rest keys).mp hr
        subst hrest
        simp [evaluate, evalResults, hc]
      · have hall := evalResults_all (c :: rest) keys
        simp only [evalResults, hc, if_true, List.singleton_append, hr] at hall
        simp only [evaluate, evalResults, hc, if_true, List.singleton_append, hr,
          List.length_cons]
        rw [if_neg (by omega)]
        exact hall
    · simp only [Bool.not_eq_true] at hc
      have hall := evalResults_all (c :: rest) keys
      simp only [evalResults, hc] at hall
      simp only [evaluate, evalResults, hc, Bool.false_eq_true, if_false,
        List.cons_append, List.length_cons]
      rw [if_neg (by simp)]
      simpa using hall

/-- C2: a step with a non-empty entry-criteria list runs exactly when
every criterion evaluates true over the flat diagnostic-key map;
otherwise the gate records a "skip" result (returning success, not
failure).  With keys x=true, y=false the list [x, y] evaluates false
and [x] alone evaluates true. -/
theorem C2_entry_criteria_all_must_hold
    (cs : List Criterion) (keys : List (String × Value)) (hne : cs ≠ []) :
    (stepEntryGate (some cs) keys = .run ↔ ∀ c ∈ cs, evaluateSingle c keys = true) ∧
    ((¬∀ c ∈ cs, evaluateSingle c keys = true) →
      stepEntryGate (some cs) keys = .skip "skip" true "Entry criteria not met") ∧
    evaluate [⟨some (.var "x")⟩, ⟨some (.var "y")⟩]
      [("x", .vBool true), ("y", .vBool false)] = false ∧
    evaluate [⟨some (.var "x")⟩] [("x", .vBool true), ("y", .vBool false)] = true := by
  have hall := evaluate_eq_all cs keys
  refine ⟨⟨?_, ?_⟩, ?_, by decide, by decide⟩
  · intro hrun c hcm
    by_contra hcf
    have hfalse : evaluate cs keys = false := by
      rw [hall]
      rcases Bool.eq_false_or_eq_true (cs.all (fun x => evaluateSingle x keys)) with h | h
      · exact absurd (List.all_eq_true.mp h c hcm) (by simpa using hcf)
      · exact h
    simp [stepEntryGate, hne, hfalse] at hrun
  · intro hforall
    have htrue : evaluate cs keys = true := by
      rw [hall]
      exact List.all_eq_true.mpr hforall
    simp [stepEntryGate, htrue]
  · intro hno
    have hfalse : evaluate cs keys = false := by
      rw [hall]
      rcases Bool.eq_false_or_eq_true (cs.all (fun c => evaluateSingle c keys)) with h | h
      · exact absurd (List.all_eq_true.mp h) hno
      · exact h
    simp [stepEntryGate, hne, hfalse]

/-- Witness for C2 on the concrete key map of the claim. -/
theorem C2_witness :
    stepEntryGate (some [⟨some (.var "x")⟩, ⟨some (.var "y")⟩])
      [("x", .vBool true), ("y", .vBool false)] =
        .skip "skip" true "Entry criteria not met" ∧
    stepEntryGate (some [⟨some (.var "x")⟩])
      [("x", .vBool true), ("y", .vBool false)] = .run :=
  ⟨(C2_entry_criteria_all_must_hold [⟨some (.var "x")⟩, ⟨some (.var "y")⟩]
      [("x", .vBool true), ("y", .vBool false)] (by simp)).2.1 (by decide),
   (C2_entry_criteria_all_must_hold [⟨some (.var "x")⟩]
      [("x", .vBool true), ("y", .vBool false)] (by simp)).1.mpr (by decide)⟩

/-- C8: single-criterion evaluation is fail-closed: a missing
expression yields false, an expression whose evaluation raises yields
false (the exception is caught, not propagated - evaluation is a total
function here), and a true outcome can only arise from an expression
that evaluated successfully to a truthy value. -/
theorem C8_evaluate_single_fail_closed
    (c : Criterion) (keys : List (String × Value)) :
    (c.expression = none → evaluateSingle c keys = false) ∧
    (∀ e, c.expression = some e → evalExpr e keys = none →
      evaluateSingle c keys = false) ∧
    (evaluateSingle c keys = true →
      ∃ e v, c.expression = some e ∧ evalExpr e keys = some v ∧ truthy v = true) := by
  refine ⟨?_, ?_, ?_⟩
  · intro h
    simp [evaluateSingle, h]
  · intro e he hn
    simp [evaluateSingle, he, hn]
  · intro h
    rcases hc : c.expression with _ | e
    · simp [evaluateSingle, hc] at h
    · rcases hv : evalExpr e keys with _ | v
      · simp [evaluateSingle, hc, hv] at h
      · simp only [evaluateSingle, hc, hv] at h
        exact ⟨e, v, rfl, hv, h⟩

/-- Witness for C8: a criterion without an expression and one whose
expression raises a NameError both evaluate to false. -/
theorem C8_witness :
    evaluateSingle ⟨none⟩ [] = false ∧
    evaluateSingle ⟨some (.var "missing")⟩ [("x", .vBool true)] = false :=
  ⟨(C8_evaluate_single_fail_closed ⟨none⟩ []).1 rfl,
   (C8_evaluate_single_fail_closed ⟨some (.var "missing")⟩
      [("x", .vBool true)]).2.1 (.var "missing") rfl (by decide)⟩

/-- C5, amended: all non-overlapping matches are processed - any
match deriving a truthy code with truthy group data lands in the
diagnostics map, not just the first; duplicate (code, group-data)
pairs are suppressed at the point of insertion, so every per-code list
stays duplicate-free; and the per-match code derivation follows
`codeSpecAmended` (designated named group's value, else the fixed
designated value, else `str` of the first named group's value, else
the stringified tuple of non-empty positional captures when at least
two are non-empty else `str` of the first positional capture, else no
code - there is no whole-match fallback). -/
theorem C5_amended_code_derivation
    (entry : DiagRule) (ms : List MatchData) (map₀ : DiagMap) (m : MatchData)
    (c : String)
    (hm : m ∈ ms) (hd : deriveCode entry m = some c) (hne : c ≠ "")
    (hgd : truthyGD (groupDataOf m) = true)
    (hinit : ∀ c2 l, lookupA map₀ c2 = some l → l.Nodup) :
    (∃ l, lookupA (searchAndManage entry ms map₀) c = some l ∧ groupDataOf m ∈ l) ∧
    (∀ c2 l, lookupA (searchAndManage entry ms map₀) c2 = some l → l.Nodup) ∧
    (∀ (e : DiagRule) (mm : MatchData), deriveCode e mm = codeSpecAmended e mm) :=
  ⟨searchAndManage_mem entry ms map₀ m c hm hd hne hgd,
   searchAndManage_nodup entry ms map₀ hinit,
   deriveCode_eq_codeSpecAmended⟩

/-- Witness for C5: with two matches for one rule, the second match's
code and group data also land in the diagnostics map. -/
theorem C5_witness :
    ∃ l, lookupA (searchAndManage { diagnostic_search_string := some "(?P<code>E[0-9])" }
        [⟨"E1", [("code", some "E1")], [some "E1"]⟩,
         ⟨"E2", [("code", some "E2")], [some "E2"]⟩] []) "E2" = some l ∧
      GroupData.dict [("code", some "E2")] ∈ l :=
  (C5_amended_code_derivation
    { diagnostic_search_string := some "(?P<code>E[0-9])" }
    [⟨"E1", [("code", some "E1")], [some "E1"]⟩,
     ⟨"E2", [("code", some "E2")], [some "E2"]⟩] []
    ⟨"E2", [("code", some "E2")], [some "E2"]⟩ "E2"
    (by simp) rfl (by decide) rfl
    (fun c2 l h => by simp [lookupA] at h)).1

/-- C1: for a started background task (registered and not yet
completed), both expiry paths of `wait_for_task` - the worker landing
only during the post-termination grace period, or not landing at all -
return a `TaskResult` (never `none`) whose status is TIMEOUT or
TERMINATED, and store it in the completed-task table; and explicit
termination (`terminate_task` followed by the worker epilogue) always
leaves a TERMINATED result in the completed-task table, whether or not
sending the interrupt signal succeeds. -/
theorem C1_expired_wait_and_termination_yield_terminal_result
    (s : ConnState) (id : String) (bt : BackgroundTask) (timeout : Option Nat)
    (ec : Int) (out err : String) (t now : Nat) (signalOk : Bool) (et : String)
    (hnodup : (s.background_tasks.map Prod.fst).Nodup)
    (hbg : lookupA s.background_tasks id = some bt)
    (hnc : lookupA s.completed_tasks id = none) :
    (∃ r, (waitForTask s id timeout (.inGrace ec out err t) signalOk now).2 = some r ∧
       (r.status = .timeout ∨ r.status = .terminated) ∧
       lookupA (waitForTask s id timeout (.inGrace ec out err t) signalOk now).1.completed_tasks
         id = some r) ∧
    (∃ r, (waitForTask s id timeout .never signalOk now).2 = some r ∧
       (r.status = .timeout ∨ r.status = .terminated) ∧
       lookupA (waitForTask s id timeout .never signalOk now).1.completed_tasks
         id = some r) ∧
    (∃ r,
       lookupA ((workerFinish ((terminateTask s id signalOk now et).1)
           id ec out err t).1).completed_tasks id = some r ∧
       r.status = .terminated) := by
  cases signalOk with
  | true =>
    have hterm : (terminateTask s id true now et).1 =
        ⟨setA s.background_tasks id { bt with terminated := true },
          s.completed_tasks⟩ := by
      simp [terminateTask, hbg]
    have hterm2 : (terminateTask s id true now "signal send failed").1 =
        ⟨setA s.background_tasks id { bt with terminated := true },
          s.completed_tasks⟩ := by
      simp [terminateTask, hbg]
    have hwf : workerFinish
        (⟨setA s.background_tasks id { bt with terminated := true },
          s.completed_tasks⟩ : ConnState) id ec out err t =
        (⟨eraseA (setA s.background_tasks id { bt with terminated := true }) id,
          setA s.completed_tasks id
            (backgroundWorkerResult { bt with terminated := true } ec out err t)⟩,
         some (backgroundWorkerResult { bt with terminated := true } ec out err t)) := by
      simp [workerFinish, lookupA_setA_self]
    refine ⟨?_, ?_, ?_⟩
    · refine ⟨backgroundWorkerResult { bt with terminated := true } ec out err t,
        ?_, .inr (by simp [backgroundWorkerResult]), ?_⟩
      · simp [waitForTask, hnc, hbg, hterm2, hwf]
      · simp [waitForTask, hnc, hbg, hterm2, hwf, lookupA_setA_self]
    · refine ⟨{ task_id := id
                command := bt.command
                status := .timeout
                return_code := some (-1)
                stdout := ""
                stderr := "Task timed out after " ++
                  (match timeout with
                   | some tv => toString tv
                   | none => "None") ++ " seconds"
                start_time := bt.start_time
                end_time := some now
                execution_time := some (now - bt.start_time) }, ?_, .inl rfl, ?_⟩
      · simp [waitForTask, hnc, hbg, hterm2]
      · simp [waitForTask, hnc, hbg, hterm2, lookupA_setA_self]
    · refine ⟨backgroundWorkerResult { bt with terminated := true } ec out err t,
        ?_, by simp [backgroundWorkerResult]⟩
      rw [hterm, hwf]
      exact lookupA_setA_self _ _ _
  | false =>
    have hfr : ∀ msg : String, (terminateTask s id false now msg).1 =
        ⟨eraseA (setA s.background_tasks id { bt with terminated := true }) id,
          setA s.completed_tasks id
            { task_id := id
              command := bt.command
              status := .terminated
              return_code := some (-1)
              stdout := ""
              stderr := "Task termination failed: " ++ msg
              start_time := bt.start_time
              end_time := some now
              execution_time := some (now - bt.start_time) }⟩ := by
      intro msg
      simp [terminateTask, hbg]
    have hlook : lookupA
        (eraseA (setA s.background_tasks id { bt with terminated := true }) id)
        id = none :=
      lookupA_eraseA_self _ _ (nodup_keys_setA _ _ _ hnodup)
    refine ⟨?_, ?_, ?_⟩
    · refine ⟨{ task_id := id
                command := bt.command
                status := .terminated
                return_code := some (-1)
                stdout := ""
                stderr := "Task termination failed: signal send failed"
                start_time := bt.start_time
                end_time := some now
                execution_time := some (now - bt.start_time) }, ?_, .inr rfl, ?_⟩
      · simp [waitForTask, hnc, hbg, hfr, workerFinish, hlook, lookupA_setA_self]
      · simp [waitForTask, hnc, hbg, hfr, workerFinish, hlook, lookupA_setA_self]
    · refine ⟨{ task_id := id
                command := bt.command
                status := .terminated
                return_code := some (-1)
                stdout := ""
                stderr := "Task termination failed: signal send failed"
                start_time := bt.start_time
                end_time := some now
                execution_time := some (now - bt.start_time) }, ?_, .inr rfl, ?_⟩
      · simp [waitForTask, hnc, hbg, hfr, lookupA_setA_self]
      · simp [waitForTask, hnc, hbg, hfr, lookupA_setA_self]
    · refine ⟨{ task_id := id
                command := bt.command
                status := .terminated
                return_code := some (-1)
                stdout := ""
                stderr := "Task termination failed: " ++ et
                start_time := bt.start_time
                end_time := some now
                execution_time := some (now - bt.start_time) }, ?_, rfl⟩
      rw [hfr et]
      simp [workerFinish, hlook, lookupA_setA_self]

/-- Witness for C1 at a concrete registry holding one running task:
an expired wait on which the worker never reports still yields a
stored terminal result. -/
theorem C1_witness :
    ∃ r, (waitForTask ⟨[("t3", ⟨"t3", "sleep 60", 10, false⟩)], []⟩
            "t3" (some 5) .never true 20).2 = some r ∧
      (r.status = .timeout ∨ r.status = .terminated) ∧
      lookupA (waitForTask ⟨[("t3", ⟨"t3", "sleep 60", 10, false⟩)], []⟩
          "t3" (some 5) .never true 20).1.completed_tasks "t3" = some r :=
  (C1_expired_wait_and_termination_yield_terminal_result
    ⟨[("t3", ⟨"t3", "sleep 60", 10, false⟩)], []⟩ "t3" ⟨"t3", "sleep 60", 10, false⟩
    (some 5) 0 "" "" 15 20 true "x" (by simp) rfl rfl).2.1

/-- C5, counterexample: two concrete rule/match pairs (the match data
is exactly what `re.finditer` yields for the stated pattern and text)
refuting the claimed code-derivation fallbacks.  First, the pattern
"ERROR" (no capture groups) matching the text "ERROR" produces no
diagnostics at all - there is no whole-match fallback.  Second, for
the pattern "(?P&lt;a&gt;x)?(?P&lt;b&gt;y)" on the text "y" the derived
code is "None" - `str` of the first named group's value, which did not
participate - not the first non-empty capture "y". -/
theorem C5_counterexample_code_derivation :
    searchAndManage { diagnostic_search_string := some "ERROR" }
      [⟨"ERROR", [], []⟩] [] = [] ∧
    deriveCode { diagnostic_search_string := some "(?P<a>x)?(?P<b>y)" }
      ⟨"y", [("a", none), ("b", some "y")], [none, some "y"]⟩ = some "None" := by
  constructor
  · rfl
  · rfl

/-! ## Output-analysis lemmas (C6) -/

theorem lookupNested_setNested (m : NestedKeys) (tc step k key : String) (v : Value) :
    lookupNested (setNested m tc step k v) tc step key =
      if key = k then some v else lookupNested m tc step key := by
  by_cases hk : key = k
  · subst hk
    simp [setNested, lookupNested, lookupA_setA_self]
  · simp only [setNested, lookupNested, lookupA_setA_self]
    rw [lookupA_setA_ne _ _ _ _ hk]
    rw [if_neg hk]
    rcases h1 : lookupA m tc with _ | sm
    · simp [h1, lookupA]
    · rcases h2 : lookupA sm step with _ | km
      · simp [h1, h2, lookupA]
      · simp [h1, h2]

theorem outputAnalyze_results (rules : List OARule) (output : String)
    (matcher : String → String → Bool) (tc step : String) (c : Ctx)
    (col : Collector) :
    (outputAnalyze rules output matcher tc step c col).2.2 =
      rules.map (fun x => (x.parameter_to_set, matcher x.regex output)) := by
  induction rules generalizing c col with
  | nil => rfl
  | cons r rest ih =>
    simp only [outputAnalyze]
    rcases hE : outputAnalyze rest output matcher tc step
        (updateDiagnosticContext c tc step r.parameter_to_set
          (.vBool (matcher r.regex output)))
        (addDiagnosticKeys col tc step r.parameter_to_set
          (.vBool (matcher r.regex output))) with ⟨c2, col2, res⟩
    have hres := ih (updateDiagnosticContext c tc step r.parameter_to_set
          (.vBool (matcher r.regex output)))
        (addDiagnosticKeys col tc step r.parameter_to_set
          (.vBool (matcher r.regex output)))
    rw [hE] at hres
    simp only [hE, List.map_cons]
    simpa using hres

theorem outputAnalyze_preserves (rules : List OARule) (output : String)
    (matcher : String → String → Bool) (tc step : String) (c : Ctx)
    (col : Collector) (key : String)
    (h : ∀ x ∈ rules, x.parameter_to_set ≠ key) :
    lookupNested (outputAnalyze rules output matcher tc step c col).1.diagnostic_context
        tc step key = lookupNested c.diagnostic_context tc step key ∧
    lookupA (outputAnalyze rules output matcher tc step c col).1.parameters_to_set
        key = lookupA c.parameters_to_set key ∧
    lookupNested (outputAnalyze rules output matcher tc step c col).2.1.keys_to_set
        tc step key = lookupNested col.keys_to_set tc step key := by
  induction rules generalizing c col with
  | nil => exact ⟨rfl, rfl, rfl⟩
  | cons r rest ih =>
    have hr : r.parameter_to_set ≠ key := h r (by simp)
    have hrest : ∀ x ∈ rest, x.parameter_to_set ≠ key := fun x hx => h x (by simp [hx])
    simp only [outputAnalyze]
    rcases hE : outputAnalyze rest output matcher tc step
        (updateDiagnosticContext c tc step r.parameter_to_set
          (.vBool (matcher r.regex output)))
        (addDiagnosticKeys col tc step r.parameter_to_set
          (.vBool (matcher r.regex output))) with ⟨c2, col2, res⟩
    have hih := ih (updateDiagnosticContext c tc step r.parameter_to_set
          (.vBool (matcher r.regex output)))
        (addDiagnosticKeys col tc step r.parameter_to_set
          (.vBool (matcher r.regex output))) hrest
    rw [hE] at hih
    obtain ⟨h1, h2, h3⟩ := hih
    refine ⟨?_, ?_, ?_⟩
    · simp only [hE]
      rw [h1]
      simp only [updateDiagnosticContext]
      rw [lookupNested_setNested, if_neg (Ne.symm hr)]
    · simp only [hE]
      rw [h2]
      simp only [updateDiagnosticContext]
      rw [lookupA_setA_ne _ _ _ _ (Ne.symm hr)]
    · simp only [hE]
      rw [h3]
      simp only [addDiagnosticKeys]
      rw [lookupNested_setNested, if_neg (Ne.symm hr)]

/-- C6: for every output-analysis rule `{regex, parameter_to_set}`,
`analyze` searches the output once per rule and writes the boolean of
the match under the rule's key in the nested diagnostic context (under
the current test id and step id), in the flat key map, and in the
result collector's step-level diagnostic-key table; the returned
result list records every rule's (key, boolean) pair in order.  The
rule's write survives to the end when no later rule reuses the same
key. -/
theorem C6_output_analysis_sets_key_everywhere
    (output : String) (matcher : String → String → Bool) (tc step : String)
    (c : Ctx) (col : Collector) (pre post : List OARule) (r : OARule)
    (hpost : ∀ x ∈ post, x.parameter_to_set ≠ r.parameter_to_set) :
    lookupNested (outputAnalyze (pre ++ r :: post) output matcher tc step c col).1.diagnostic_context
        tc step r.parameter_to_set = some (.vBool (matcher r.regex output)) ∧
    lookupA (outputAnalyze (pre ++ r :: post) output matcher tc step c col).1.parameters_to_set
        r.parameter_to_set = some (.vBool (matcher r.regex output)) ∧
    lookupNested (outputAnalyze (pre ++ r :: post) output matcher tc step c col).2.1.keys_to_set
        tc step r.parameter_to_set = some (.vBool (matcher r.regex output)) ∧
    (outputAnalyze (pre ++ r :: post) output matcher tc step c col).2.2 =
      (pre ++ r :: post).map (fun x => (x.parameter_to_set, matcher x.regex output)) := by
  refine ⟨?_, ?_, ?_, outputAnalyze_results _ _ _ _ _ _ _⟩ <;>
  · induction pre generalizing c col with
    | nil =>
      simp only [List.nil_append, outputAnalyze]
      rcases hE : outputAnalyze post output matcher tc step
          (updateDiagnosticContext c tc step r.parameter_to_set
            (.vBool (matcher r.regex output)))
          (addDiagnosticKeys col tc step r.parameter_to_set
            (.vBool (matcher r.regex output))) with ⟨c2, col2, res⟩
      have hpres := outputAnalyze_preserves post output matcher tc step
          (updateDiagnosticContext c tc step r.parameter_to_set
            (.vBool (matcher r.regex output)))
          (addDiagnosticKeys col tc step r.parameter_to_set
            (.vBool (matcher r.regex output))) r.parameter_to_set hpost
      rw [hE] at hpres
      obtain ⟨h1, h2, h3⟩ := hpres
      simp only [hE]
      first
      | (rw [h1]
         simp only [updateDiagnosticContext]
         rw [lookupNested_setNested, if_pos rfl])
      | (rw [h2]
         simp only [updateDiagnosticContext]
         rw [lookupA_setA_self])
      | (rw [h3]
         simp only [addDiagnosticKeys]
         rw [lookupNested_setNested, if_pos rfl])
    | cons p rest ih =>
      simp only [List.cons_append, outputAnalyze]
      rcases hE : outputAnalyze (rest ++ r :: post) output matcher tc step
          (updateDiagnosticContext c tc step p.parameter_to_set
            (.vBool (matcher p.regex output)))
          (addDiagnosticKeys col tc step p.parameter_to_set
            (.vBool (matcher p.regex output))) with ⟨c2, col2, res⟩
      have hih := ih (updateDiagnosticContext c tc step p.parameter_to_set
            (.vBool (matcher p.regex output)))
          (addDiagnosticKeys col tc step p.parameter_to_set
            (.vBool (matcher p.regex output)))
      rw [hE] at hih
      simpa [hE] using hih

/-- Witness for C6: one rule whose pattern matches sets its key to
true in all three stores and in the returned result list. -/
theorem C6_witness :
    lookupNested (outputAnalyze [⟨"ok", "ok_seen"⟩] "ok" (fun _ _ => true)
        "T1" "S1" ⟨[], []⟩ ⟨[]⟩).1.diagnostic_context
      "T1" "S1" "ok_seen" = some (.vBool true) ∧
    lookupA (outputAnalyze [⟨"ok", "ok_seen"⟩] "ok" (fun _ _ => true)
        "T1" "S1" ⟨[], []⟩ ⟨[]⟩).1.parameters_to_set
      "ok_seen" = some (.vBool true) ∧
    lookupNested (outputAnalyze [⟨"ok", "ok_seen"⟩] "ok" (fun _ _ => true)
        "T1" "S1" ⟨[], []⟩ ⟨[]⟩).2.1.keys_to_set
      "T1" "S1" "ok_seen" = some (.vBool true) := by
  have h := C6_output_analysis_sets_key_everywhere "ok" (fun _ _ => true)
    "T1" "S1" ⟨[], []⟩ ⟨[]⟩ [] [] ⟨"ok", "ok_seen"⟩ (by simp)
  exact ⟨h.1, h.2.1, h.2.2.1⟩

/-! ## Diagnostics-dedup lemmas (C9) -/

theorem filterDictVals_idem (c : String) (d : List (String × Option String)) :
    filterDictVals c (filterDictVals c d) = filterDictVals c d := by
  induction d with
  | nil => rfl
  | cons p rest ih =>
    by_cases hp : p.2 = some c
    · simp [filterDictVals, List.filter_cons, hp, ih]
    · simp [filterDictVals, List.filter_cons, hp, ih]

theorem entryData_idem (c : String) (e : DEntry) :
    entryData c (entryData c e) = entryData c e := by
  cases e <;> simp [entryData, filterDictVals_idem]

theorem entryKey_entryData (c : String) (e : DEntry) :
    entryKey c (entryData c e) = entryKey c e := by
  cases e <;> simp [entryKey, entryData, filterDictVals_idem]

theorem skipSelfRef_entryData (c : String) (e : DEntry)
    (h : skipSelfRef c e = false) : skipSelfRef c (entryData c e) = false := by
  cases e with
  | str s => exact h
  | dict d => rfl
  | list xs => rfl

theorem fuStep_lookup_ne (c : String) (st : FUState) (e : DEntry) (c2 : String)
    (h : c2 ≠ c) :
    lookupA (fuStep c st e).merged c2 = lookupA st.merged c2 ∧
    lookupA (fuStep c st e).tracker c2 = lookupA st.tracker c2 := by
  by_cases hs : skipSelfRef c e
  · simp [fuStep, hs]
  · by_cases hk : entryKey c e ∈ (lookupA st.tracker c).getD []
    · simp [fuStep, hs, hk]
    · by_cases ht : truthyD (entryData c e)
      · simp [fuStep, hs, hk, ht, lookupA_setA_ne _ _ _ _ h]
      · simp [fuStep, hs, hk, ht, lookupA_setA_ne _ _ _ _ h]

theorem fuInv_empty : FUInv ⟨[], []⟩ := by
  refine ⟨List.nodup_nil, fun c l h => ?_⟩
  simp [lookupA] at h

theorem fuStep_inv (c : String) (st : FUState) (e : DEntry) (h : FUInv st) :
    FUInv (fuStep c st e) := by
  by_cases hs : skipSelfRef c e
  · simpa [fuStep, hs] using h
  by_cases hk : entryKey c e ∈ (lookupA st.tracker c).getD []
  · simpa [fuStep, hs, hk] using h
  by_cases ht : truthyD (entryData c e)
  · have hstep : fuStep c st e =
        ⟨setA st.tracker c ((lookupA st.tracker c).getD [] ++ [entryKey c e]),
         setA st.merged c
           ((lookupA st.merged c).getD [] ++ [entryData c e])⟩ := by
      simp [fuStep, hs, hk, ht]
    rw [hstep]
    refine ⟨nodup_keys_setA _ _ _ h.1, fun c2 l hl => ?_⟩
    by_cases hc2 : c2 = c
    · subst hc2
      rw [lookupA_setA_self] at hl
      cases hl
      have hcur : ∀ x ∈ (lookupA st.merged c2).getD [], NormEntry c2 x := by
        rcases hcm : lookupA st.merged c2 with _ | cur
        · simp
        · simpa using (h.2 c2 cur hcm).1.2.1
      have hcurkeys : ∀ k ∈ ((lookupA st.merged c2).getD []).map (entryKey c2),
          k ∈ (lookupA st.tracker c2).getD [] := by
        rcases hcm : lookupA st.merged c2 with _ | cur
        · simp
        · simpa using (h.2 c2 cur hcm).2
      have hcurnd : (((lookupA st.merged c2).getD []).map (entryKey c2)).Nodup := by
        rcases hcm : lookupA st.merged c2 with _ | cur
        · simp
        · simpa using (h.2 c2 cur hcm).1.2.2
      refine ⟨⟨by simp, ?_, ?_⟩, ?_⟩
      · intro x hx
        rcases List.mem_append.mp hx with hx1 | hx2
        · exact hcur x hx1
        · rw [List.mem_singleton.mp hx2]
          exact ⟨skipSelfRef_entryData c2 e (by simpa using hs), ht,
            entryData_idem c2 e⟩
      · rw [List.map_append]
        rw [List.nodup_append]
        refine ⟨hcurnd, by simp, ?_⟩
        intro k hkm
        simp only [List.map_cons, List.map_nil, List.mem_singleton]
        intro hke
        rw [entryKey_entryData] at hke
        exact hk (hke ▸ hcurkeys k hkm)
      · intro k hkm
        rw [lookupA_setA_self]
        simp only [Option.getD_some]
        rw [List.map_append] at hkm
        rcases List.mem_append.mp hkm with hk1 | hk2
        · exact List.mem_append_left _ (hcurkeys k hk1)
        · simp only [List.map_cons, List.map_nil, List.mem_singleton] at hk2
          rw [entryKey_entryData] at hk2
          exact List.mem_append_right _ (by simp [hk2])
    · rw [lookupA_setA_ne _ _ _ _ hc2] at hl
      obtain ⟨hn, hmem⟩ := h.2 c2 l hl
      exact ⟨hn, fun k hkm => by
        rw [lookupA_setA_ne _ _ _ _ hc2]
        exact hmem k hkm⟩
  · have hstep : fuStep c st e =
        ⟨setA st.tracker c ((lookupA st.tracker c).getD [] ++ [entryKey c e]),
         st.merged⟩ := by
      simp [fuStep, hs, hk, ht]
    rw [hstep]
    refine ⟨h.1, fun c2 l hl => ?_⟩
    obtain ⟨hn, hmem⟩ := h.2 c2 l hl
    refine ⟨hn, fun k hkm => ?_⟩
    by_cases hc2 : c2 = c
    · subst hc2
      rw [lookupA_setA_self]
      simp only [Option.getD_some]
      exact List.mem_append_left _ (hmem k hkm)
    · rw [lookupA_setA_ne _ _ _ _ hc2]
      exact hmem k hkm

theorem fuCode_inv (st : FUState) (c : String) (es : List DEntry)
    (h : FUInv st) : FUInv (fuCode st c es) := by
  induction es generalizing st with
  | nil => exact h
  | cons e rest ih => exact ih (fuStep c st e) (fuStep_inv c st e h)

theorem fuItem_inv (st : FUState) (item : List (String × List DEntry))
    (h : FUInv st) : FUInv (fuItem st item) := by
  induction item generalizing st with
  | nil => exact h
  | cons p rest ih => exact ih (fuCode st p.1 p.2) (fuCode_inv st p.1 p.2 h)

theorem filterUnique_inv (data : List (List (String × List DEntry))) :
    FUInv (data.foldl fuItem ⟨[], []⟩) := by
  suffices hgen : ∀ st, FUInv st → FUInv (data.foldl fuItem st) from
    hgen ⟨[], []⟩ fuInv_empty
  induction data with
  | nil => exact fun st h => h
  | cons item rest ih => exact fun st h => ih (fuItem st item) (fuItem_inv st item h)

theorem fuCode_replay (c : String) (l2 : List DEntry) :
    ∀ (l1 : List DEntry) (st : FUState),
    (∀ e ∈ l2, NormEntry c e) →
    ((l1 ++ l2).map (entryKey c)).Nodup →
    lookupA st.tracker c = some (l1.map (entryKey c)) →
    lookupA st.merged c = some l1 →
    (List.foldl (fuStep c) st l2).merged = setA st.merged c (l1 ++ l2) ∧
    (∀ c2, c2 ≠ c →
      lookupA (List.foldl (fuStep c) st l2).merged c2 = lookupA st.merged c2) := by
  induction l2 with
  | nil =>
    intro l1 st _ _ htr hmg
    refine ⟨?_, fun c2 _ => rfl⟩
    simp only [List.foldl_nil, List.append_nil]
    exact (setA_lookup_eq_self st.merged c l1 hmg).symm
  | cons e rest ih =>
    intro l1 st hent hnd htr hmg
    obtain ⟨hskip, htruthy, hdata⟩ := hent e (by simp)
    have hkey : entryKey c e ∉ l1.map (entryKey c) := by
      rw [show ((l1 ++ e :: rest).map (entryKey c)) =
          l1.map (entryKey c) ++ entryKey c e :: rest.map (entryKey c) by simp] at hnd
      rw [List.nodup_append] at hnd
      intro hmem
      exact hnd.2.2 hmem (by simp)
    have hstep : fuStep c st e =
        ⟨setA st.tracker c (l1.map (entryKey c) ++ [entryKey c e]),
         setA st.merged c (l1 ++ [e])⟩ := by
      simp [fuStep, hskip, htr, hkey, hdata, htruthy, hmg]
    have htr2 : lookupA (setA st.tracker c (l1.map (entryKey c) ++ [entryKey c e])) c =
        some ((l1 ++ [e]).map (entryKey c)) := by
      rw [lookupA_setA_self]
      simp
    have hmg2 : lookupA (setA st.merged c (l1 ++ [e])) c = some (l1 ++ [e]) :=
      lookupA_setA_self _ _ _
    have hih := ih (l1 ++ [e])
      ⟨setA st.tracker c (l1.map (entryKey c) ++ [entryKey c e]),
       setA st.merged c (l1 ++ [e])⟩
      (fun x hx => hent x (by simp [hx]))
      (by simpa using hnd) htr2 hmg2
    simp only [List.foldl_cons]
    rw [hstep]
    constructor
    · rw [hih.1]
      simp only [setA_setA]
      congr 1
      simp
    · intro c2 hc2
      rw [hih.2 c2 hc2]
      exact lookupA_setA_ne _ _ _ _ hc2

theorem fuCode_clean (c : String) (l : List DEntry) (st : FUState)
    (hn : NormalList c l)
    (htr : lookupA st.tracker c = none)
    (hmg : lookupA st.merged c = none) :
    (fuCode st c l).merged = st.merged ++ [(c, l)] ∧
    (∀ c2, c2 ≠ c → lookupA (fuCode st c l).merged c2 = lookupA st.merged c2) := by
  obtain ⟨hne, hent, hnd⟩ := hn
  rcases hl : l with _ | ⟨e, rest⟩
  · exact absurd hl hne
  subst hl
  obtain ⟨hskip, htruthy, hdata⟩ := hent e (by simp)
  have hstep : fuStep c st e =
      ⟨setA st.tracker c [entryKey c e], setA st.merged c [e]⟩ := by
    simp [fuStep, hskip, htr, hdata, htruthy, hmg]
  have htr2 : lookupA (setA st.tracker c [entryKey c e]) c =
      some (([e]).map (entryKey c)) := by
    rw [lookupA_setA_self]
    rfl
  have hmg2 : lookupA (setA st.merged c [e]) c = some [e] :=
    lookupA_setA_self _ _ _
  have hrep := fuCode_replay c rest [e]
    ⟨setA st.tracker c [entryKey c e], setA st.merged c [e]⟩
    (fun x hx => hent x (by simp [hx]))
    (by simpa using hnd) htr2 hmg2
  have hfold : fuCode st c (e :: rest) =
      List.foldl (fuStep c)
        ⟨setA st.tracker c [entryKey c e], setA st.merged c [e]⟩ rest := by
    simp only [fuCode, List.foldl_cons, hstep]
  constructor
  · rw [hfold, hrep.1]
    simp only [List.singleton_append]
    rw [setA_of_lookupA_none st.merged c [e] hmg,
      setA_append_single st.merged c [e] (e :: rest) hmg]
  · intro c2 hc2
    rw [hfold, hrep.2 c2 hc2]
    simp only
    exact lookupA_setA_ne _ _ _ _ hc2

theorem fuItem_clean (items : List (String × List DEntry)) :
    ∀ (st : FUState),
    (∀ p ∈ items, NormalList p.1 p.2) →
    ((items.map Prod.fst)).Nodup →
    (∀ p ∈ items, lookupA st.tracker p.1 = none ∧ lookupA st.merged p.1 = none) →
    (fuItem st items).merged = st.merged ++ items := by
  induction items with
  | nil => intro st _ _ _; simp [fuItem]
  | cons p rest ih =>
    intro st hn hkeys hclean
    obtain ⟨c, l⟩ := p
    have hcl := fuCode_clean c l st (hn (c, l) (by simp))
      (hclean (c, l) (by simp)).1 (hclean (c, l) (by simp)).2
    have hfold : fuItem st ((c, l) :: rest) = fuItem (fuCode st c l) rest := by
      simp only [fuItem, List.foldl_cons]
    rw [hfold]
    have hkeys2 : (rest.map Prod.fst).Nodup := by
      simp only [List.map_cons, List.nodup_cons] at hkeys
      exact hkeys.2
    have hnotc : ∀ q ∈ rest, q.1 ≠ c := by
      intro q hq he
      simp only [List.map_cons, List.nodup_cons] at hkeys
      exact hkeys.1 (he ▸ List.mem_map.mpr ⟨q, hq, rfl⟩)
    have hclean2 : ∀ q ∈ rest,
        lookupA (fuCode st c l).tracker q.1 = none ∧
        lookupA (fuCode st c l).merged q.1 = none := by
      intro q hq
      have hqc := hnotc q hq
      constructor
      · have : lookupA (fuCode st c l).tracker q.1 = lookupA st.tracker q.1 := by
          have hgen : ∀ (es : List DEntry) (st0 : FUState),
              lookupA (fuCode st0 c es).tracker q.1 = lookupA st0.tracker q.1 := by
            intro es
            induction es with
            | nil => intro st0; rfl
            | cons x xs ihx =>
              intro st0
              simp only [fuCode, List.foldl_cons]
              rw [show List.foldl (fuStep c) (fuStep c st0 x) xs =
                  fuCode (fuStep c st0 x) c xs from rfl]
              rw [ihx (fuStep c st0 x)]
              exact (fuStep_lookup_ne c st0 x q.1 hqc).2
          exact hgen l st
        rw [this]
        exact (hclean q (by simp [hq])).1
      · rw [hcl.2 q.1 hqc]
        exact (hclean q (by simp [hq])).2
    rw [ih (fuCode st c l) (fun q hq => hn q (by simp [hq])) hkeys2 hclean2]
    rw [hcl.1]
    simp

/-- C9: the diagnostics merge routine of the result collector is
idempotent - re-running `filter_unique_diagnostics` on its own
(already-merged) output reproduces that output exactly.  The routine
strips self-referential string entries, compares dict entries by their
non-code-valued pairs, list entries by value and scalars by value, and
suppresses duplicates at insertion; its output is in the normal form
that a second pass maps to itself. -/
theorem C9_filter_unique_diagnostics_idempotent
    (data : List (List (String × List DEntry))) :
    filterUniqueDiagnostics [filterUniqueDiagnostics data] =
      filterUniqueDiagnostics data := by
  have hinv : FUInv (data.foldl fuItem ⟨[], []⟩) := filterUnique_inv data
  have hkeys : ((filterUniqueDiagnostics data).map Prod.fst).Nodup := hinv.1
  have hnorm : ∀ p ∈ filterUniqueDiagnostics data, NormalList p.1 p.2 := by
    intro p hp
    exact (hinv.2 p.1 p.2
      (lookupA_of_mem_nodup (filterUniqueDiagnostics data) p hkeys hp)).1
  have hclean : ∀ p ∈ filterUniqueDiagnostics data,
      lookupA (FUState.mk [] []).tracker p.1 = none ∧
      lookupA (FUState.mk [] []).merged p.1 = none := fun p _ => ⟨rfl, rfl⟩
  have hmain := fuItem_clean (filterUniqueDiagnostics data) ⟨[], []⟩
    hnorm hkeys hclean
  show (fuItem ⟨[], []⟩ (filterUniqueDiagnostics data)).merged =
    filterUniqueDiagnostics data
  rw [hmain]
  rfl

end Cpact
